import Mathlib

/-!
Verification of the MAPIE classification prediction-set engine
(`src/mapie/classification_draft.py`, class `MapieClassifier`).

The numpy arrays of the source are embedded as `List ℚ` / `List (List ℚ)`
(float64 arithmetic is modelled exactly over the rationals), and each numpy
primitive used by the engine is given a faithful list-level counterpart:

* `np.argsort` (ascending, a deterministic tie-break by original index) and
  `np.fliplr` composing to the descending orderings used throughout;
* `np.cumsum`, `np.take_along_axis`, `np.argmax` (first occurrence of the
  maximum), the masked `argmin`/`argmax` of `np.ma` (fully masked arrays
  yield index 0, as numpy fills with ±inf), and the masked row minimum with
  an `inf` fill value, represented by the stand-in constant `INFQ`;
* `np.finfo(np.float64).eps` is `EPSILON = 2 ^ (-52)` and
  `np.finfo(np.float64).max` is `finfoMax = (2 ^ 53 - 1) * 2 ^ 971`.

Helpers of this repository that live outside the given sources
(`mapie.utils.compute_quantiles`, `mapie.metrics.classification_mean_width_score`)
are modelled from the spec and marked as such in their doc comments.
-/

namespace Mapie

/-- Machine precision: `np.finfo(np.float64).eps = 2 ^ (-52)`
(`mapie._machine_precision.EPSILON`). -/
def EPSILON : ℚ := 1 / 2 ^ 52

/-- Stand-in for the IEEE-754 `np.inf` fill value: a rational larger than
every finite float64. -/
def INFQ : ℚ := 2 ^ 1024

/-- The largest finite float64, `np.finfo(np.float64).max`. -/
def finfoMax : ℚ := (2 ^ 53 - 1) * 2 ^ 971

/-- `np.cumsum` along a row: partial sums including the current entry. -/
def cumsum : List ℚ → List ℚ
  | [] => []
  | x :: xs => x :: (cumsum xs).map (fun v => x + v)

/-- The ordering used to model `np.argsort`: indices compared by their
values, ties broken by the original index order. -/
def argsortRel {α : Type} [LinearOrder α] [Inhabited α] (l : List α) (i j : ℕ) : Prop :=
  l.getD i default < l.getD j default ∨
    (l.getD i default = l.getD j default ∧ i ≤ j)

instance {α : Type} [LinearOrder α] [Inhabited α] (l : List α) :
    DecidableRel (argsortRel l) := by
  unfold argsortRel; infer_instance

/-- `np.argsort` (ascending) of a row, with the deterministic tie-break
"equal values keep their original index order" (a stable sort).  The source
only relies on a deterministic tie-break, which the spec leaves to the
implementer. -/
def argsortAsc {α : Type} [LinearOrder α] [Inhabited α] (l : List α) : List ℕ :=
  List.insertionSort (argsortRel l) (List.range l.length)

/-- `np.fliplr(np.argsort(...))` of a row: indices sorted by decreasing
value. -/
def argsortDesc {α : Type} [LinearOrder α] [Inhabited α] (l : List α) : List ℕ :=
  (argsortAsc l).reverse

/-- `np.take_along_axis` for one row. -/
def takeAlong {α : Type} [Inhabited α] (l : List α) (idx : List ℕ) : List α :=
  idx.map (fun i => l.getD i default)

/-- The maximum entry of a row (`np.max`); `0` on the empty row. -/
def maxD (l : List ℚ) : ℚ := l.foldl max (l.headD 0)

/-- The minimum entry of a row (`np.min`); `0` on the empty row. -/
def minListD (l : List ℚ) : ℚ := l.foldl min (l.headD 0)

/-- `np.argmax` of a row: index of the first occurrence of the maximum. -/
def argmaxList (l : List ℚ) : ℕ := l.indexOf (maxD l)

/-- `np.ma.masked_less(v, lo).argmin()`: the first index attaining the
minimum among entries that are not below `lo`; `0` when all entries are
masked (numpy fills masked entries with `+inf`). -/
def maskedArgmin (v : List ℚ) (lo : ℚ) : ℕ :=
  ((List.range v.length).foldl (fun acc i =>
    if v.getD i 0 < lo then acc
    else match acc with
      | none => some i
      | some j => if v.getD i 0 < v.getD j 0 then some i else acc) none).getD 0

/-- `np.ma.masked_greater(v, hi).argmax()`: the first index attaining the
maximum among entries that are not above `hi`; `0` when all entries are
masked (numpy fills masked entries with `-inf`). -/
def maskedArgmax (v : List ℚ) (hi : ℚ) : ℕ :=
  ((List.range v.length).foldl (fun acc i =>
    if hi < v.getD i 0 then acc
    else match acc with
      | none => some i
      | some j => if v.getD j 0 < v.getD i 0 then some i else acc) none).getD 0

/-- `np.min(np.ma.masked_less(row, EPSILON).filled(fill_value=np.inf))`:
the smallest row entry that is at least `EPSILON`, with masked entries
replaced by the `inf` stand-in before taking the minimum. -/
def minGeEps (row : List ℚ) : ℚ :=
  (row.map (fun p => if p < EPSILON then INFQ else p)).foldl min INFQ

/-- `sklearn.preprocessing.label_binarize` row for an encoded label
(one-hot over the `n_classes` encoded classes `0, …, n_classes - 1`). -/
def oneHot (nClasses : ℕ) (yi : ℕ) : List ℚ :=
  (List.range nClasses).map (fun c => if c = yi then 1 else 0)

/-- Conformity scores of the `"lac"` / `"score"` method
(`MapieClassifier.fit`, `self.conformity_scores_ = np.take_along_axis(
1 - y_pred_proba, y_enc.reshape(-1, 1), axis=1)`). -/
def lacConformityScores (yPredProba : List (List ℚ)) (yEnc : List ℕ) : List ℚ :=
  List.zipWith (fun row yi => (row.map (fun p => 1 - p)).getD yi 0) yPredProba yEnc

/-- A `List.getD` evaluated under `List.map`, for an in-range index. -/
theorem getD_map_lt {α β : Type} (f : α → β) (l : List α) (n : ℕ) (d : β) (d2 : α)
    (h : n < l.length) : (l.map f).getD n d = f (l.getD n d2) := by
  rw [List.getD_eq_getElem _ _ (by simpa using h), List.getElem_map,
    List.getD_eq_getElem _ _ h]

/-- A `List.getD` on `(List.range n).map f`, for an in-range index. -/
theorem getD_range_map {α : Type} (f : ℕ → α) (n i : ℕ) (d : α) (h : i < n) :
    ((List.range n).map f).getD i d = f i := by
  rw [getD_map_lt f _ i d 0 (by simpa using h),
    List.getD_eq_getElem _ _ (by simpa using h), List.getElem_range]

theorem argsortAsc_perm {α : Type} [LinearOrder α] [Inhabited α] (l : List α) :
    (argsortAsc l).Perm (List.range l.length) :=
  List.perm_insertionSort _ _

theorem argsortDesc_perm {α : Type} [LinearOrder α] [Inhabited α] (l : List α) :
    (argsortDesc l).Perm (List.range l.length) :=
  (List.reverse_perm _).trans (argsortAsc_perm l)

theorem argsortAsc_length {α : Type} [LinearOrder α] [Inhabited α] (l : List α) :
    (argsortAsc l).length = l.length := by
  simpa using (argsortAsc_perm l).length_eq

theorem argsortDesc_length {α : Type} [LinearOrder α] [Inhabited α] (l : List α) :
    (argsortDesc l).length = l.length := by
  simpa using (argsortDesc_perm l).length_eq

theorem mem_argsortDesc {α : Type} [LinearOrder α] [Inhabited α] {l : List α} {i : ℕ}
    (h : i < l.length) : i ∈ argsortDesc l :=
  (argsortDesc_perm l).mem_iff.2 (List.mem_range.2 h)

theorem argsortDesc_nodup {α : Type} [LinearOrder α] [Inhabited α] (l : List α) :
    (argsortDesc l).Nodup :=
  (argsortDesc_perm l).nodup_iff.2 (List.nodup_range _)

theorem mem_argsortDesc_lt {α : Type} [LinearOrder α] [Inhabited α] {l : List α} {j : ℕ}
    (h : j ∈ argsortDesc l) : j < l.length :=
  List.mem_range.1 ((argsortDesc_perm l).mem_iff.1 h)

theorem takeAlong_length {α : Type} [Inhabited α] (l : List α) (idx : List ℕ) :
    (takeAlong l idx).length = idx.length := by
  simp [takeAlong]

theorem cumsum_length (l : List ℚ) : (cumsum l).length = l.length := by
  induction l with
  | nil => rfl
  | cons x xs ih => simp [cumsum, ih]

theorem cumsum_getD (l : List ℚ) (k : ℕ) (h : k < l.length) :
    (cumsum l).getD k 0 = (l.take (k + 1)).sum := by
  induction l generalizing k with
  | nil => simp at h
  | cons x xs ih =>
    cases k with
    | zero => simp [cumsum]
    | succ k =>
      have hk : k < xs.length := by simpa using h
      rw [cumsum, List.getD_cons_succ,
        getD_map_lt _ _ _ _ 0 (by simpa [cumsum_length] using hk), ih k hk,
        List.take_succ_cons, List.sum_cons]

theorem le_foldl_max (l : List ℚ) (a : ℚ) : a ≤ l.foldl max a := by
  induction l generalizing a with
  | nil => simp
  | cons x xs ih => exact le_trans (le_max_left a x) (ih (max a x))

theorem mem_le_foldl_max {l : List ℚ} {x : ℚ} (hx : x ∈ l) (a : ℚ) :
    x ≤ l.foldl max a := by
  induction l generalizing a with
  | nil => simp at hx
  | cons y ys ih =>
    rcases List.mem_cons.1 hx with rfl | hx2
    · exact le_trans (le_max_right a x) (le_foldl_max ys (max a x))
    · exact ih hx2 (max a y)

theorem le_maxD {l : List ℚ} {x : ℚ} (hx : x ∈ l) : x ≤ maxD l :=
  mem_le_foldl_max hx _

theorem foldl_max_mem (l : List ℚ) (a : ℚ) : l.foldl max a = a ∨ l.foldl max a ∈ l := by
  induction l generalizing a with
  | nil => exact Or.inl rfl
  | cons x xs ih =>
    rcases ih (max a x) with h | h
    · rcases max_choice a x with h2 | h2
      · exact Or.inl (by rw [List.foldl_cons, h, h2])
      · exact Or.inr (by rw [List.foldl_cons, h, h2]; exact List.mem_cons_self _ _)
    · exact Or.inr (List.mem_cons_of_mem _ h)

theorem headD_mem {α : Type} {l : List α} (h : l ≠ []) (d : α) : l.headD d ∈ l := by
  cases l with
  | nil => exact absurd rfl h
  | cons a t => simp

theorem maxD_mem {l : List ℚ} (h : l ≠ []) : maxD l ∈ l := by
  rcases foldl_max_mem l (l.headD 0) with h2 | h2
  · rw [maxD, h2]; exact headD_mem h 0
  · exact h2

theorem foldl_min_le_init (l : List ℚ) (a : ℚ) : l.foldl min a ≤ a := by
  induction l generalizing a with
  | nil => simp
  | cons x xs ih => exact le_trans (ih (min a x)) (min_le_left a x)

theorem foldl_min_le_mem {l : List ℚ} {x : ℚ} (hx : x ∈ l) (a : ℚ) :
    l.foldl min a ≤ x := by
  induction l generalizing a with
  | nil => simp at hx
  | cons y ys ih =>
    rcases List.mem_cons.1 hx with rfl | hx2
    · exact le_trans (foldl_min_le_init ys (min a x)) (min_le_right a x)
    · exact ih hx2 (min a y)

theorem foldl_min_mem (l : List ℚ) (a : ℚ) : l.foldl min a = a ∨ l.foldl min a ∈ l := by
  induction l generalizing a with
  | nil => exact Or.inl rfl
  | cons x xs ih =>
    rcases ih (min a x) with h | h
    · rcases min_choice a x with h2 | h2
      · exact Or.inl (by rw [List.foldl_cons, h, h2])
      · exact Or.inr (by rw [List.foldl_cons, h, h2]; exact List.mem_cons_self _ _)
    · exact Or.inr (List.mem_cons_of_mem _ h)

theorem argmaxList_lt_length {l : List ℚ} (h : l ≠ []) : argmaxList l < l.length :=
  List.indexOf_lt_length.2 (maxD_mem h)

theorem getD_argmaxList {l : List ℚ} (h : l ≠ []) : l.getD (argmaxList l) 0 = maxD l := by
  have hlt := argmaxList_lt_length h
  rw [List.getD_eq_getElem _ _ hlt]
  exact List.getElem_indexOf _

theorem indexOf_map_ite_one (q : List ℕ) (yi : ℕ) :
    (q.map (fun j => if j = yi then (1 : ℚ) else 0)).indexOf 1 = q.indexOf yi := by
  induction q with
  | nil => simp
  | cons a q ih =>
    by_cases h : a = yi
    · simp [h, List.indexOf_cons]
    · simp only [List.map_cons, List.indexOf_cons, if_neg h]
      have h0 : ((0 : ℚ) == 1) = false := by
        simp
      have ha : (a == yi) = false := by simpa using h
      rw [h0, ha]
      simp [ih]

theorem oneHot_length (n yi : ℕ) : (oneHot n yi).length = n := by simp [oneHot]

theorem oneHot_getD (n yi j : ℕ) (hyi : yi < n) :
    (oneHot n yi).getD j 0 = if j = yi then 1 else 0 := by
  by_cases hj : j < n
  · rw [oneHot, getD_range_map _ _ _ _ hj]
  · rw [List.getD_eq_default _ _ (by simpa [oneHot_length] using hj)]
    rw [if_neg (fun h => hj (by rw [h]; exact hyi))]

theorem argmax_takeAlong_oneHot {q : List ℕ} {yi n : ℕ} (hyi : yi < n) (hq : yi ∈ q) :
    argmaxList (takeAlong (oneHot n yi) q) = q.indexOf yi := by
  have hmap : takeAlong (oneHot n yi) q =
      q.map (fun j => if j = yi then (1 : ℚ) else 0) :=
    List.map_congr_left (fun j _ => oneHot_getD n yi j hyi)
  have hne : q.map (fun j => if j = yi then (1 : ℚ) else 0) ≠ [] := by
    simp only [ne_eq, List.map_eq_nil_iff]
    rintro rfl; simp at hq
  have hone : (1 : ℚ) ∈ q.map (fun j => if j = yi then (1 : ℚ) else 0) :=
    List.mem_map.2 ⟨yi, hq, by simp⟩
  have hmax : maxD (q.map (fun j => if j = yi then (1 : ℚ) else 0)) = 1 := by
    apply le_antisymm
    · rcases maxD_mem hne with hmem
      rcases List.mem_map.1 hmem with ⟨j, _, hj⟩
      rw [← hj]; split <;> norm_num
    · exact le_maxD hone
  rw [hmap, argmaxList, hmax, indexOf_map_ite_one]

/-- C1: for every calibration set, the `"lac"`/`"score"` conformity score of
sample `i` is `1 - P[i, y_i]`; in particular the spec's concrete scenario
`P = [[0.7,0.2,0.1],[0.1,0.8,0.1],[0.3,0.3,0.4]]`, `y = [0,1,2]` yields the
stored scores `[0.3, 0.2, 0.6]`. -/
theorem lac_conformity_scores_correct :
    (∀ (P : List (List ℚ)) (yEnc : List ℕ) (i : ℕ),
      i < P.length → i < yEnc.length → yEnc.getD i 0 < (P.getD i []).length →
      (lacConformityScores P yEnc).getD i 0 = 1 - (P.getD i []).getD (yEnc.getD i 0) 0) ∧
    lacConformityScores
      [[7/10, 2/10, 1/10], [1/10, 8/10, 1/10], [3/10, 3/10, 2/5]] [0, 1, 2] =
      [3/10, 2/10, 3/5] := by
  constructor
  · intro P yEnc i hiP hiY hy
    have hlen : i < (List.zipWith
        (fun (row : List ℚ) (yi : ℕ) => (row.map (fun p => 1 - p)).getD yi 0)
        P yEnc).length := by
      simpa using lt_min hiP hiY
    rw [List.getD_eq_getElem _ _ hiP] at hy ⊢
    rw [List.getD_eq_getElem _ _ hiY] at hy ⊢
    rw [lacConformityScores, List.getD_eq_getElem _ _ hlen, List.getElem_zipWith]
    rw [getD_map_lt _ _ _ _ 0 hy, List.getD_eq_getElem _ _ hy]
  · norm_num [lacConformityScores]

/-- Witness for C1: the general clause evaluated at the spec's concrete
calibration set, sample 0. -/
theorem lac_conformity_scores_correct_witness :
    (lacConformityScores
      [[7/10, 2/10, 1/10], [1/10, 8/10, 1/10], [3/10, 3/10, 2/5]] [0, 1, 2]).getD 0 0 =
      1 - ([[7/10, 2/10, 1/10], [1/10, 8/10, 1/10], [3/10, 3/10, 2/5]].getD 0 []).getD 0 0 :=
  lac_conformity_scores_correct.1
    [[7/10, 2/10, 1/10], [1/10, 8/10, 1/10], [3/10, 3/10, 2/5]] [0, 1, 2] 0
    (by norm_num) (by norm_num) (by norm_num)

/-- A `List.getD` evaluated under `List.zipWith`, for an in-range index. -/
theorem getD_zipWith_lt {α β γ : Type} (f : α → β → γ) (as : List α) (bs : List β)
    (i : ℕ) (d : γ) (da : α) (db : β) (ha : i < as.length) (hb : i < bs.length) :
    (List.zipWith f as bs).getD i d = f (as.getD i da) (bs.getD i db) := by
  rw [List.getD_eq_getElem _ _ (by simpa [List.length_zipWith] using lt_min ha hb),
    List.getElem_zipWith, List.getD_eq_getElem _ _ ha, List.getD_eq_getElem _ _ hb]

/-- `MapieClassifier._get_true_label_cumsum_proba` for one calibration row:
binarize the label over the encoded classes, sort the probabilities
descending (`np.fliplr(np.argsort(...))`), cumulative-sum them, read the
cumulative sum at the true label's sorted position (`np.argmax` of the
permuted one-hot row), and pair it with the 1-indexed rank `cutoff + 1`. -/
def trueLabelCumsumRow (row : List ℚ) (yi : ℕ) : ℚ × ℕ :=
  ((cumsum (takeAlong row (argsortDesc row))).getD
      (argmaxList (takeAlong (oneHot row.length yi) (argsortDesc row))) 0,
    argmaxList (takeAlong (oneHot row.length yi) (argsortDesc row)) + 1)

/-- `MapieClassifier._get_true_label_cumsum_proba` over the calibration set:
per-sample cumulative probability of the true label, and the 1-indexed
`cutoff` ranks.  Labels are the encoded labels `0..K-1` (the sklearn
`LabelEncoder` and `classes_` bookkeeping are external collaborators). -/
def getTrueLabelCumsumProba (yEnc : List ℕ) (yPredProba : List (List ℚ)) :
    List ℚ × List ℕ :=
  (List.zipWith (fun row yi => (trueLabelCumsumRow row yi).1) yPredProba yEnc,
   List.zipWith (fun row yi => (trueLabelCumsumRow row yi).2) yPredProba yEnc)

/-- Conformity scores of the `"aps"` / `"cumulated_score"` family as stored by
`MapieClassifier.fit`: the true-label cumulative probability minus
`u_i * P[i, y_i]`, where `u_i` is the uniform draw for sample `i`
(`u = random_state.uniform(size=len(y_pred_proba))`). -/
def apsConformityScores (yPredProba : List (List ℚ)) (yEnc : List ℕ) (u : List ℚ) :
    List ℚ :=
  (List.range yPredProba.length).map (fun i =>
    (getTrueLabelCumsumProba yEnc yPredProba).1.getD i 0 -
      u.getD i 0 * (yPredProba.getD i []).getD (yEnc.getD i 0) 0)

theorem trueLabelCumsumRow_eq (row : List ℚ) (yi : ℕ) (hy : yi < row.length) :
    trueLabelCumsumRow row yi =
      (((takeAlong row (argsortDesc row)).take
          ((argsortDesc row).indexOf yi + 1)).sum,
        (argsortDesc row).indexOf yi + 1) := by
  have hqmem : yi ∈ argsortDesc row := mem_argsortDesc hy
  have hidx : (argsortDesc row).indexOf yi < (argsortDesc row).length :=
    List.indexOf_lt_length.2 hqmem
  rw [trueLabelCumsumRow, argmax_takeAlong_oneHot hy hqmem,
    cumsum_getD _ _ (by rw [takeAlong_length]; exact hidx)]

/-- C2: for every calibration set, fitting with `"aps"`/`"cumulated_score"`
stores for sample `i` the conformity score equal to the sum of row `i`'s
probabilities sorted descending, taken up to and including the true label's
position, minus `u_i * P[i, y_i]`; and the stored `cutoff_i` is the
1-indexed rank of the true label in that descending order. -/
theorem aps_conformity_scores_correct (P : List (List ℚ)) (yEnc : List ℕ)
    (u : List ℚ) (i : ℕ) (hiP : i < P.length) (hiY : i < yEnc.length)
    (hy : yEnc.getD i 0 < (P.getD i []).length) :
    (apsConformityScores P yEnc u).getD i 0 =
      ((takeAlong (P.getD i []) (argsortDesc (P.getD i []))).take
          ((argsortDesc (P.getD i [])).indexOf (yEnc.getD i 0) + 1)).sum -
        u.getD i 0 * (P.getD i []).getD (yEnc.getD i 0) 0 ∧
    (getTrueLabelCumsumProba yEnc P).2.getD i 0 =
      (argsortDesc (P.getD i [])).indexOf (yEnc.getD i 0) + 1 := by
  have h1 : (getTrueLabelCumsumProba yEnc P).1.getD i 0 =
      ((takeAlong (P.getD i []) (argsortDesc (P.getD i []))).take
        ((argsortDesc (P.getD i [])).indexOf (yEnc.getD i 0) + 1)).sum := by
    rw [getTrueLabelCumsumProba]
    rw [getD_zipWith_lt _ _ _ i 0 [] 0 hiP hiY, trueLabelCumsumRow_eq _ _ hy]
  have h2 : (getTrueLabelCumsumProba yEnc P).2.getD i 0 =
      (argsortDesc (P.getD i [])).indexOf (yEnc.getD i 0) + 1 := by
    rw [getTrueLabelCumsumProba]
    rw [getD_zipWith_lt _ _ _ i 0 [] 0 hiP hiY, trueLabelCumsumRow_eq _ _ hy]
  refine ⟨?_, h2⟩
  rw [apsConformityScores, getD_range_map _ _ _ _ hiP, h1]

/-- Witness for C2: the concrete calibration row `P = [[0.1, 0.7, 0.2]]` with
true label `2` and uniform draw `u = 1/3`. -/
theorem aps_conformity_scores_correct_witness :
    (apsConformityScores [[1/10, 7/10, 2/10]] [2] [1/3]).getD 0 0 =
      ((takeAlong ([1/10, 7/10, 2/10] : List ℚ)
          (argsortDesc ([1/10, 7/10, 2/10] : List ℚ))).take
          ((argsortDesc ([1/10, 7/10, 2/10] : List ℚ)).indexOf 2 + 1)).sum -
        (1/3 : ℚ) * ([1/10, 7/10, 2/10] : List ℚ).getD 2 0 ∧
    (getTrueLabelCumsumProba [2] [[1/10, 7/10, 2/10]]).2.getD 0 0 =
      (argsortDesc ([1/10, 7/10, 2/10] : List ℚ)).indexOf 2 + 1 :=
  aps_conformity_scores_correct [[1/10, 7/10, 2/10]] [2] [1/3] 0
    (by norm_num) (by norm_num) (by norm_num)

theorem argsortRel_total {α : Type} [LinearOrder α] [Inhabited α] (l : List α)
    (i j : ℕ) : argsortRel l i j ∨ argsortRel l j i := by
  rcases lt_trichotomy (l.getD i default) (l.getD j default) with h | h | h
  · exact Or.inl (Or.inl h)
  · rcases le_total i j with hij | hij
    · exact Or.inl (Or.inr ⟨h, hij⟩)
    · exact Or.inr (Or.inr ⟨h.symm, hij⟩)
  · exact Or.inr (Or.inl h)

theorem argsortRel_trans {α : Type} [LinearOrder α] [Inhabited α] (l : List α)
    {i j k : ℕ} (h1 : argsortRel l i j) (h2 : argsortRel l j k) :
    argsortRel l i k := by
  rcases h1 with h1 | ⟨e1, le1⟩
  · rcases h2 with h2 | ⟨e2, _⟩
    · exact Or.inl (lt_trans h1 h2)
    · exact Or.inl (by rw [← e2]; exact h1)
  · rcases h2 with h2 | ⟨e2, le2⟩
    · exact Or.inl (by rw [e1]; exact h2)
    · exact Or.inr ⟨e1.trans e2, le_trans le1 le2⟩

theorem argsortAsc_sorted {α : Type} [LinearOrder α] [Inhabited α] (l : List α) :
    List.Sorted (argsortRel l) (argsortAsc l) := by
  haveI : IsTotal ℕ (argsortRel l) := ⟨argsortRel_total l⟩
  haveI : IsTrans ℕ (argsortRel l) := ⟨fun _ _ _ => argsortRel_trans l⟩
  exact List.sorted_insertionSort _ _

theorem map_getD_range {α : Type} (l : List α) (d : α) :
    (List.range l.length).map (fun i => l.getD i d) = l := by
  apply List.ext_getElem
  · simp
  · intro n h1 h2
    simp only [List.getElem_map, List.getElem_range, List.getD_eq_getElem _ _ h2]

/-- For a list `q` that is a permutation of `0, …, n-1`, the ascending argsort
of `q` maps position `v` to the index of value `v` inside `q`; i.e.
`np.argsort` of a permutation is its inverse permutation. -/
theorem argsortAsc_of_perm_range {q : List ℕ} {n : ℕ}
    (hq : q.Perm (List.range n)) {yi : ℕ} (hyi : yi < n) :
    (argsortAsc q).getD yi 0 = q.indexOf yi := by
  have hlen : q.length = n := by simpa using hq.length_eq
  have hnodup : q.Nodup := hq.nodup_iff.2 (List.nodup_range n)
  have hslen : (argsortAsc q).length = q.length := argsortAsc_length q
  have hyis : yi < (argsortAsc q).length := by rw [hslen, hlen]; exact hyi
  have hperm2 : ((argsortAsc q).map (fun i => q.getD i default)).Perm
      (List.range n) := by
    have h1 := (argsortAsc_perm q).map (fun i => q.getD i default)
    rw [map_getD_range q default] at h1
    exact h1.trans hq
  have hsorted2 : List.Sorted (· ≤ ·)
      ((argsortAsc q).map (fun i => q.getD i default)) :=
    List.Pairwise.map _ (fun a b h => by
      rcases h with h | ⟨e, _⟩
      · exact le_of_lt h
      · exact le_of_eq e) (argsortAsc_sorted q)
  have hm : (argsortAsc q).map (fun i => q.getD i default) = List.range n :=
    List.eq_of_perm_of_sorted hperm2 hsorted2
      ((List.pairwise_lt_range n).imp (fun h => le_of_lt h))
  have hval : q.getD ((argsortAsc q).getD yi 0) default = yi := by
    have hcongr := congrArg (fun l => l.getD yi 0) hm
    simp only at hcongr
    rw [getD_map_lt _ _ _ _ 0 hyis] at hcongr
    rw [hcongr, List.getD_eq_getElem _ _ (by simpa using hyi), List.getElem_range]
  have hjlt : (argsortAsc q).getD yi 0 < q.length := by
    have hmem : (argsortAsc q).getD yi 0 ∈ argsortAsc q := by
      rw [List.getD_eq_getElem _ _ hyis]; exact List.getElem_mem _
    simpa [hlen] using List.mem_range.1 ((argsortAsc_perm q).mem_iff.1 hmem)
  have hidx : q.indexOf (q.getD ((argsortAsc q).getD yi 0) default) =
      (argsortAsc q).getD yi 0 := by
    rw [List.getD_eq_getElem _ _ hjlt]
    exact List.indexOf_getElem hnodup _ hjlt
  conv_rhs => rw [← hval]
  rw [hidx]

/-- `MapieClassifier._get_true_label_position`: the double-argsort
`np.argsort(np.fliplr(np.argsort(P)))` taken along the labels, i.e. the
position of each true label in its row's descending-probability order;
stored as the `"top_k"` conformity scores by `MapieClassifier.fit`. -/
def getTrueLabelPosition (yPredProba : List (List ℚ)) (y : List ℕ) : List ℕ :=
  List.zipWith (fun row yi => (argsortAsc (argsortDesc row)).getD yi 0) yPredProba y

/-- The score claimed by C6 for `"top_k"`: the 1-indexed rank of the true
label in the row's descending-probability order.  Built from the claim's
words, for comparison with the source's `_get_true_label_position`. -/
def topKRankOneIndexed (yPredProba : List (List ℚ)) (y : List ℕ) : List ℕ :=
  List.zipWith (fun row yi => (argsortDesc row).indexOf yi + 1) yPredProba y

/-- Counterexample to C6: for the row `[0.1, 0.7, 0.2]` with true label `1`
(the most probable class), the source stores conformity score `0` — the
0-indexed rank — while the claim's 1-indexed rank is `1`. -/
theorem top_k_one_indexed_counterexample :
    getTrueLabelPosition [[1/10, 7/10, 2/10]] [1] = [0] ∧
    topKRankOneIndexed [[1/10, 7/10, 2/10]] [1] = [1] ∧
    getTrueLabelPosition [[1/10, 7/10, 2/10]] [1] ≠
      topKRankOneIndexed [[1/10, 7/10, 2/10]] [1] := by
  refine ⟨?_, ?_, ?_⟩ <;>
    norm_num [getTrueLabelPosition, topKRankOneIndexed, argsortDesc, argsortAsc,
      argsortRel, List.insertionSort, List.orderedInsert, List.indexOf_cons]

/-- C6 amended: fitting with `"top_k"` stores, for each sample `i`, the rank
of the true label in row `i`'s descending-probability order **0-indexed**
(the source's `np.argsort(np.fliplr(np.argsort(...)))` composition), not the
1-indexed rank. -/
theorem top_k_scores_zero_indexed (P : List (List ℚ)) (y : List ℕ) (i : ℕ)
    (hiP : i < P.length) (hiY : i < y.length)
    (hy : y.getD i 0 < (P.getD i []).length) :
    (getTrueLabelPosition P y).getD i 0 =
      (argsortDesc (P.getD i [])).indexOf (y.getD i 0) := by
  rw [getTrueLabelPosition, getD_zipWith_lt _ _ _ i 0 [] 0 hiP hiY]
  exact argsortAsc_of_perm_range (argsortDesc_perm (P.getD i [])) hy

/-- Witness for the amended C6 at the counterexample's concrete input. -/
theorem top_k_scores_zero_indexed_witness :
    (getTrueLabelPosition [[1/10, 7/10, 2/10]] [1]).getD 0 0 =
      (argsortDesc ([1/10, 7/10, 2/10] : List ℚ)).indexOf 1 :=
  top_k_scores_zero_indexed [[1/10, 7/10, 2/10]] [1] 0
    (by norm_num) (by norm_num) (by norm_num)

/-- The `include_last_label` argument: `True`, `False`, or `"randomized"`
(any other value is rejected by `_check_include_last_label`). -/
inductive IncludeLastLabel
  | tru
  | fls
  | randomized
deriving DecidableEq

/-- `MapieClassifier._get_last_index_included` for one row and one scalar
threshold.  `True`/`"randomized"` take the masked argmin of
`cumsum - threshold` over entries `≥ -EPSILON`; `False` takes the masked
argmax of `cumsum - max(threshold, min cumsum)` over entries `≤ EPSILON`. -/
def getLastIndexIncluded (cumsumRow : List ℚ) (threshold : ℚ)
    (ill : IncludeLastLabel) : ℕ :=
  match ill with
  | .tru | .randomized =>
      maskedArgmin (cumsumRow.map (fun v => v - threshold)) (-EPSILON)
  | .fls =>
      maskedArgmax (cumsumRow.map (fun v =>
        v - max threshold (minListD cumsumRow))) EPSILON

/-- `MapieClassifier._get_last_included_proba` for one row and one scalar
threshold (the source broadcasts this per α / per training threshold): sort
probabilities descending, cumulative-sum, add the RAPS penalty
`λ * max(0, rank - k*)` when the method is `"raps"`, restore the original
order, find the last included index, and read that label's probability,
replacing it by the smallest entry `≥ EPSILON` (with `inf` fill) when it is
`≤ EPSILON`. -/
def getLastIncludedProba (method : String) (row : List ℚ) (threshold : ℚ)
    (ill : IncludeLastLabel) (lam kStar : ℚ) : List ℚ × ℕ × ℚ :=
  let indexSorted := argsortDesc row
  let sortedCumsum := cumsum (takeAlong row indexSorted)
  let sortedCumsumReg :=
    if method = "raps" then
      (List.range sortedCumsum.length).map (fun r =>
        sortedCumsum.getD r 0 + lam * max 0 ((r : ℚ) + 1 - kStar))
    else sortedCumsum
  let cumsumOrig := takeAlong sortedCumsumReg (argsortAsc indexSorted)
  let idxLast := getLastIndexIncluded cumsumOrig threshold ill
  let pRaw := row.getD idxLast 0
  (cumsumOrig, idxLast, if pRaw ≤ EPSILON then minGeEps row else pRaw)

theorem minGeEps_le {row : List ℚ} {x : ℚ} (hx : x ∈ row) (hge : EPSILON ≤ x) :
    minGeEps row ≤ x := by
  have hmem : x ∈ row.map (fun p => if p < EPSILON then INFQ else p) :=
    List.mem_map.2 ⟨x, hx, if_neg (not_lt.2 hge)⟩
  exact foldl_min_le_mem hmem INFQ

theorem minGeEps_cases (row : List ℚ) : minGeEps row = INFQ ∨
    (minGeEps row ∈ row ∧ EPSILON ≤ minGeEps row) := by
  rw [minGeEps]
  rcases foldl_min_mem (row.map (fun p => if p < EPSILON then INFQ else p)) INFQ
    with h | h
  · exact Or.inl h
  · rcases List.mem_map.1 h with ⟨x, hx, hfx⟩
    by_cases hlt : x < EPSILON
    · rw [if_pos hlt] at hfx
      exact Or.inl hfx.symm
    · rw [if_neg hlt] at hfx
      rw [← hfx]
      exact Or.inr ⟨hx, not_lt.1 hlt⟩

/-- The key bound behind C10: whatever index the assembler picks, the
returned "last included probability" never exceeds the row's maximum,
provided some entry of the row reaches `EPSILON`. -/
theorem getLastIncludedProba_le_maxD (method : String) (row : List ℚ)
    (threshold lam kStar : ℚ) (ill : IncludeLastLabel)
    (h : ∃ p ∈ row, EPSILON ≤ p) :
    (getLastIncludedProba method row threshold ill lam kStar).2.2 ≤ maxD row := by
  obtain ⟨p, hp, hep⟩ := h
  have hne : row ≠ [] := by rintro rfl; simp at hp
  have hmax_ge : EPSILON ≤ maxD row := le_trans hep (le_maxD hp)
  rw [getLastIncludedProba]
  set idxLast := getLastIndexIncluded
    (takeAlong (if method = "raps" then
        (List.range (cumsum (takeAlong row (argsortDesc row))).length).map (fun r =>
          (cumsum (takeAlong row (argsortDesc row))).getD r 0 +
            lam * max 0 ((r : ℚ) + 1 - kStar))
      else cumsum (takeAlong row (argsortDesc row)))
      (argsortAsc (argsortDesc row))) threshold ill with hidx
  by_cases hz : row.getD idxLast 0 ≤ EPSILON
  · rw [if_pos hz]
    exact minGeEps_le (maxD_mem hne) hmax_ge
  · rw [if_neg hz]
    by_cases hlt : idxLast < row.length
    · rw [List.getD_eq_getElem _ _ hlt]
      exact le_maxD (List.getElem_mem hlt)
    · exfalso
      apply hz
      rw [List.getD_eq_default _ _ (le_of_not_lt hlt)]
      rw [EPSILON]; norm_num

/-- The prediction set of one test row in the prefit / `agg_scores="mean"`
regime for the `"naive"`/`"aps"`/`"raps"` branch of `MapieClassifier.predict`:
class `c` is included iff `P[c] - p_last ≥ -EPSILON`. -/
def prefitPredictionSetRow (method : String) (row : List ℚ) (threshold : ℚ)
    (ill : IncludeLastLabel) (lam kStar : ℚ) : List Bool :=
  (List.range row.length).map (fun c =>
    decide (row.getD c 0 -
      (getLastIncludedProba method row threshold ill lam kStar).2.2 ≥ -EPSILON))

/-- C10: in the prefit/mean regime, for the cumulated-score branch
(`"naive"`, `"aps"`, `"raps"`; `include_last_label` `True` or `False` — the
set before the `"randomized"` tie-break), the prediction set always contains
the class of highest predicted probability, hence is never empty.  The
hypothesis asks for one entry of the (normalized) row to reach machine
epsilon. -/
theorem prediction_set_contains_top_class (method : String) (row : List ℚ)
    (threshold lam kStar : ℚ) (ill : IncludeLastLabel)
    (h : ∃ p ∈ row, EPSILON ≤ p) :
    (prefitPredictionSetRow method row threshold ill lam kStar).getD
      (argmaxList row) false = true ∧
    true ∈ prefitPredictionSetRow method row threshold ill lam kStar := by
  obtain ⟨p, hp, hep⟩ := h
  have hne : row ≠ [] := by rintro rfl; simp at hp
  have hargmax : argmaxList row < row.length := argmaxList_lt_length hne
  have hple : (getLastIncludedProba method row threshold ill lam kStar).2.2 ≤
      maxD row :=
    getLastIncludedProba_le_maxD method row threshold lam kStar ill ⟨p, hp, hep⟩
  have heps : (0 : ℚ) ≤ EPSILON := by rw [EPSILON]; norm_num
  have hprop : row.getD (argmaxList row) 0 -
      (getLastIncludedProba method row threshold ill lam kStar).2.2 ≥ -EPSILON := by
    rw [getD_argmaxList hne]
    linarith
  have hentry : (prefitPredictionSetRow method row threshold ill lam kStar).getD
      (argmaxList row) false = true := by
    rw [prefitPredictionSetRow, getD_range_map _ _ _ _ hargmax,
      decide_eq_true_eq]
    exact hprop
  refine ⟨hentry, ?_⟩
  have hlen : argmaxList row <
      (prefitPredictionSetRow method row threshold ill lam kStar).length := by
    simpa [prefitPredictionSetRow] using hargmax
  have := List.getElem_mem hlen
  rwa [← List.getD_eq_getElem _ false hlen, hentry] at this

/-- Witness for C10: the row `[0.7, 0.3]` with threshold `1/2`,
method `"aps"`, `include_last_label=True`. -/
theorem prediction_set_contains_top_class_witness :
    (prefitPredictionSetRow "aps" [7/10, 3/10] (1/2) .tru 0 0).getD
      (argmaxList [7/10, 3/10]) false = true ∧
    true ∈ prefitPredictionSetRow "aps" [7/10, 3/10] (1/2) .tru 0 0 :=
  prediction_set_contains_top_class "aps" [7/10, 3/10] (1/2) 0 0 .tru
    ⟨7/10, by norm_num, by rw [EPSILON]; norm_num⟩

/-- The replacement value C7 claims: the smallest strictly-positive entry of
the row (claim-side definition, for comparison with the source's
`masked_less(…, EPSILON)` minimum). -/
def smallestPositive (row : List ℚ) : ℚ :=
  (row.filter (fun p => decide (0 < p))).foldl min INFQ

/-- A row whose last included label has the strictly positive probability
`10⁻²⁰ ≤ EPSILON`: probabilities `[0.6, 0.4 - 10⁻²⁰, 10⁻²⁰]`. -/
def c7row : List ℚ := [6/10, 2/5 - 1/10^20, 1/10^20]

/-- A threshold that makes label 2 of `c7row` the last included label under
`include_last_label=True`. -/
def c7threshold : ℚ := 1 + EPSILON - 1/(2 * 10^20)

/-- Counterexample to C7: on `c7row` the last included label (index 2) has
probability `10⁻²⁰`, which is strictly positive yet `≤ EPSILON`; the source
replaces it by `0.4 - 10⁻²⁰` — the smallest entry that is at least
`EPSILON` — not by the smallest strictly-positive entry `10⁻²⁰` the claim
names. -/
theorem zero_proba_replacement_counterexample :
    (getLastIncludedProba "aps" c7row c7threshold .tru 0 0).2.1 = 2 ∧
    c7row.getD 2 0 ≤ EPSILON ∧
    (0 : ℚ) < c7row.getD 2 0 ∧
    (getLastIncludedProba "aps" c7row c7threshold .tru 0 0).2.2 = 2/5 - 1/10^20 ∧
    smallestPositive c7row = 1/10^20 ∧
    (getLastIncludedProba "aps" c7row c7threshold .tru 0 0).2.2 ≠
      smallestPositive c7row := by
  refine ⟨?_, ?_, ?_, ?_, ?_, ?_⟩ <;>
    norm_num [getLastIncludedProba, getLastIndexIncluded, maskedArgmin, minGeEps,
      cumsum, takeAlong, argsortDesc, argsortAsc, argsortRel, List.insertionSort,
      List.orderedInsert, smallestPositive, c7row, c7threshold, EPSILON, INFQ,
      List.range_succ]

/-- C7 amended: in the prediction-set assembler, a last-included probability
at most `EPSILON` is replaced by the smallest probability of the row that is
**at least machine epsilon** (entries below `EPSILON`, even strictly
positive ones, are masked before the minimum); probabilities above
`EPSILON` are returned unchanged.  The hypotheses say the row is a
probability row: entries at most 1, one of them at least `EPSILON`. -/
theorem zero_proba_replacement_amended (method : String) (row : List ℚ)
    (threshold lam kStar : ℚ) (ill : IncludeLastLabel)
    (hex : ∃ p ∈ row, EPSILON ≤ p) (hub : ∀ p ∈ row, p ≤ 1) :
    (EPSILON <
        row.getD (getLastIncludedProba method row threshold ill lam kStar).2.1 0 →
      (getLastIncludedProba method row threshold ill lam kStar).2.2 =
        row.getD (getLastIncludedProba method row threshold ill lam kStar).2.1 0) ∧
    (row.getD (getLastIncludedProba method row threshold ill lam kStar).2.1 0 ≤
        EPSILON →
      (getLastIncludedProba method row threshold ill lam kStar).2.2 ∈ row ∧
      EPSILON ≤ (getLastIncludedProba method row threshold ill lam kStar).2.2 ∧
      ∀ p ∈ row, EPSILON ≤ p →
        (getLastIncludedProba method row threshold ill lam kStar).2.2 ≤ p) := by
  obtain ⟨q, hq, hqe⟩ := hex
  have hne : row ≠ [] := by rintro rfl; simp at hq
  have hmax_ge : EPSILON ≤ maxD row := le_trans hqe (le_maxD hq)
  have hdef : (getLastIncludedProba method row threshold ill lam kStar).2.2 =
      if row.getD (getLastIncludedProba method row threshold ill lam kStar).2.1 0 ≤
          EPSILON
      then minGeEps row
      else row.getD (getLastIncludedProba method row threshold ill lam kStar).2.1 0 :=
    rfl
  constructor
  · intro h
    rw [hdef, if_neg (not_le.2 h)]
  · intro h
    rw [hdef, if_pos h]
    rcases minGeEps_cases row with hc | ⟨hmem, hge⟩
    · exfalso
      have h1 : minGeEps row ≤ maxD row := minGeEps_le (maxD_mem hne) hmax_ge
      have h2 : maxD row ≤ 1 := hub _ (maxD_mem hne)
      rw [hc] at h1
      have : INFQ ≤ 1 := le_trans h1 h2
      rw [INFQ] at this
      norm_num at this
    · exact ⟨hmem, hge, fun p hp hpe => minGeEps_le hp hpe⟩

/-- Witness for the amended C7: the row `[0.7, 0.3]` at threshold `2`
(both mention-relevant branches are decidable at this input). -/
theorem zero_proba_replacement_amended_witness :
    (EPSILON <
        ([7/10, 3/10] : List ℚ).getD
          (getLastIncludedProba "aps" [7/10, 3/10] 2 .tru 0 0).2.1 0 →
      (getLastIncludedProba "aps" [7/10, 3/10] 2 .tru 0 0).2.2 =
        ([7/10, 3/10] : List ℚ).getD
          (getLastIncludedProba "aps" [7/10, 3/10] 2 .tru 0 0).2.1 0) ∧
    (([7/10, 3/10] : List ℚ).getD
        (getLastIncludedProba "aps" [7/10, 3/10] 2 .tru 0 0).2.1 0 ≤ EPSILON →
      (getLastIncludedProba "aps" [7/10, 3/10] 2 .tru 0 0).2.2 ∈
        ([7/10, 3/10] : List ℚ) ∧
      EPSILON ≤ (getLastIncludedProba "aps" [7/10, 3/10] 2 .tru 0 0).2.2 ∧
      ∀ p ∈ ([7/10, 3/10] : List ℚ), EPSILON ≤ p →
        (getLastIncludedProba "aps" [7/10, 3/10] 2 .tru 0 0).2.2 ≤ p) :=
  zero_proba_replacement_amended "aps" [7/10, 3/10] 2 0 0 .tru
    ⟨7/10, by norm_num, by rw [EPSILON]; norm_num⟩
    (by intro p hp; rcases List.mem_cons.1 hp with rfl | hp2
        · norm_num
        · rcases List.mem_cons.1 hp2 with rfl | hp3
          · norm_num
          · simp at hp3)

/-- `MapieClassifier._regularize_conformity_score`: repeat the conformity
scores along a new α-axis and add `np.maximum(lam * (cutoff - k_star), 0)`;
entry `(i, a)` of the result is the regularized score of sample `i` for the
`a`-th α value. -/
def regularizeConformityScore (kStar : List ℚ) (lam : ℚ) (confScore : List ℚ)
    (cutoff : List ℕ) : List (List ℚ) :=
  (List.range confScore.length).map (fun i =>
    kStar.map (fun k =>
      confScore.getD i 0 + max (lam * ((cutoff.getD i 0 : ℚ) - k)) 0))

/-- C4: the regularized RAPS conformity score equals
`s_i + λ·max(0, cutoff_i - k*)`, computed independently per α (one column
per α value), for every nonnegative λ (all candidate values are positive). -/
theorem raps_regularized_score_correct (kStar : List ℚ) (lam : ℚ)
    (confScore : List ℚ) (cutoff : List ℕ) (i a : ℕ)
    (hi : i < confScore.length) (ha : a < kStar.length) (hlam : 0 ≤ lam) :
    ((regularizeConformityScore kStar lam confScore cutoff).getD i []).getD a 0 =
      confScore.getD i 0 +
        lam * max 0 ((cutoff.getD i 0 : ℚ) - kStar.getD a 0) := by
  rw [regularizeConformityScore, getD_range_map _ _ _ _ hi,
    getD_map_lt _ _ _ _ 0 ha, mul_max_of_nonneg _ _ hlam, mul_zero, max_comm]

/-- Witness for C4: one sample with score `3/4`, cutoff `3`, `k* = 2`,
`λ = 0.1`. -/
theorem raps_regularized_score_correct_witness :
    ((regularizeConformityScore [2] (1/10) [3/4] [3]).getD 0 []).getD 0 0 =
      (3/4 : ℚ) + (1/10) * max 0 ((([3].getD 0 0 : ℕ) : ℚ) - [2].getD 0 0) :=
  raps_regularized_score_correct [2] (1/10) [3/4] [3] 0 0
    (by norm_num) (by norm_num) (by norm_num)

/-- The `"lac"`/`"score"` crossval branch of `MapieClassifier.predict`
(`cv` a CV splitter, `agg_scores="crossval"`): for one test sample and one
class, the count over training folds `j` of
`(1 - P[c, j]) - conformity_score_j ≤ EPSILON`
(`np.less_equal((1 - y_pred_proba) - conformity_scores_, EPSILON).sum(axis=2)`). -/
def lacCrossvalCount (probsFold : List ℚ) (scores : List ℚ) : ℕ :=
  (List.zipWith (fun p s => decide ((1 - p) - s ≤ EPSILON)) probsFold scores).count
    true

/-- The `"lac"` crossval prediction set for one test sample: class `c` is
included for the `a`-th α iff `count - α(n-1) ≥ -EPSILON`, with
`n = len(conformity_scores_)`.  `probs` lists, per class, the per-training-
fold probabilities of this test sample. -/
def lacCrossvalPredictionSet (scores : List ℚ) (alphas : List ℚ)
    (probs : List (List ℚ)) : List (List Bool) :=
  probs.map (fun probsFold =>
    alphas.map (fun alpha =>
      decide ((lacCrossvalCount probsFold scores : ℚ) -
        alpha * ((scores.length : ℚ) - 1) ≥ -EPSILON)))

/-- The aps-family crossval branch for one test sample: the thresholds fed
to `_get_last_included_proba` are the training conformity scores, and the
assembler counts folds with `P[c, j] - p_last_j ≤ EPSILON`.  `foldProbs`
lists, per training fold `j`, the class-probability row of this test sample
(`lambda_star`/`k_star` are `None` in this regime; RAPS rejects CV
splitters). -/
def apsCrossvalCount (method : String) (ill : IncludeLastLabel)
    (foldProbs : List (List ℚ)) (scores : List ℚ) (c : ℕ) : ℕ :=
  (List.zipWith (fun row s =>
      decide (row.getD c 0 -
        (getLastIncludedProba method row s ill 0 0).2.2 ≤ EPSILON))
    foldProbs scores).count true

/-- The aps-family crossval prediction set for one test sample: class `c` is
included for the `a`-th α iff the count is at most `(n+1)(1-α) + EPSILON`
(`self.quantiles_ = (n + 1) * (1 - alpha_np)` in this regime). -/
def apsCrossvalPredictionSet (method : String) (ill : IncludeLastLabel)
    (foldProbs : List (List ℚ)) (scores : List ℚ) (alphas : List ℚ) :
    List (List Bool) :=
  (List.range (foldProbs.headD []).length).map (fun c =>
    alphas.map (fun alpha =>
      decide ((apsCrossvalCount method ill foldProbs scores c : ℚ) -
        ((scores.length : ℚ) + 1) * (1 - alpha) ≤ EPSILON)))

/-- Counterexample to C3: training conformity scores `[0.3, 0.2, 0.6]`
(n = 3), `α = 1/2`, one class with per-fold probability `3/4`.  The count of
training scores satisfying the inclusion inequality is `2`, which does not
exceed `(n+1)(1-α) = 2` (nor does the normalized count `2/3`), yet the lac
crossval branch includes the class, because the code compares the count with
`α(n-1) = 1`, not with `(n+1)(1-α)`. -/
theorem crossval_threshold_counterexample :
    lacCrossvalPredictionSet [3/10, 2/10, 6/10] [1/2] [[3/4, 3/4, 3/4]] =
      [[true]] ∧
    (lacCrossvalCount [3/4, 3/4, 3/4] [3/10, 2/10, 6/10] : ℚ) = 2 ∧
    ¬ ((2 : ℚ) > ((3 : ℚ) + 1) * (1 - 1/2)) ∧
    ¬ ((2 : ℚ) / 3 > ((3 : ℚ) + 1) * (1 - 1/2)) := by
  refine ⟨?_, ?_, by norm_num, by norm_num⟩ <;>
    norm_num [lacCrossvalPredictionSet, lacCrossvalCount, EPSILON]

/-- C3 amended: in the crossval regime the code's rule is branch-specific —
for `"lac"`, class `c` is included at the `a`-th α iff the count of training
folds `j` with `(1 - P[c,j]) - s_j ≤ ε` is at least `α(n-1) - ε`; for the
cumulated-score family, class `c` is included iff the count of folds with
`P[c,j] - p_last_j ≤ ε` is at most `(n+1)(1-α) + ε`.  Neither branch
includes a class exactly when a count exceeds `(n+1)(1-α)`. -/
theorem crossval_inclusion_amended (scores : List ℚ) (alphas : List ℚ)
    (probs : List (List ℚ)) (foldProbs : List (List ℚ)) (method : String)
    (ill : IncludeLastLabel) (c a : ℕ)
    (hc : c < probs.length) (ha : a < alphas.length)
    (hc2 : c < (foldProbs.headD []).length) :
    (((lacCrossvalPredictionSet scores alphas probs).getD c []).getD a false =
        true ↔
      (lacCrossvalCount (probs.getD c []) scores : ℚ) ≥
        alphas.getD a 0 * ((scores.length : ℚ) - 1) - EPSILON) ∧
    (((apsCrossvalPredictionSet method ill foldProbs scores alphas).getD c
        []).getD a false = true ↔
      (apsCrossvalCount method ill foldProbs scores c : ℚ) ≤
        ((scores.length : ℚ) + 1) * (1 - alphas.getD a 0) + EPSILON) := by
  constructor
  · rw [lacCrossvalPredictionSet, getD_map_lt _ _ _ _ [] hc,
      getD_map_lt _ _ _ _ 0 ha, decide_eq_true_eq]
    constructor <;> intro h <;> linarith
  · rw [apsCrossvalPredictionSet, getD_range_map _ _ _ _ hc2,
      getD_map_lt _ _ _ _ 0 ha, decide_eq_true_eq]
    constructor <;> intro h <;> linarith

/-- Witness for the amended C3 at the counterexample's concrete input. -/
theorem crossval_inclusion_amended_witness :
    (((lacCrossvalPredictionSet [3/10, 2/10, 6/10] [1/2]
        [[3/4, 3/4, 3/4]]).getD 0 []).getD 0 false = true ↔
      (lacCrossvalCount ([[3/4, 3/4, 3/4]].getD 0 [])
          [3/10, 2/10, 6/10] : ℚ) ≥
        [1/2].getD 0 0 * ((([3/10, 2/10, 6/10] : List ℚ).length : ℚ) - 1) -
          EPSILON) ∧
    (((apsCrossvalPredictionSet "aps" .tru [[1/2, 1/2]] [3/10, 2/10, 6/10]
        [1/2]).getD 0 []).getD 0 false = true ↔
      (apsCrossvalCount "aps" .tru [[1/2, 1/2]] [3/10, 2/10, 6/10] 0 : ℚ) ≤
        ((([3/10, 2/10, 6/10] : List ℚ).length : ℚ) + 1) *
          (1 - [1/2].getD 0 0) + EPSILON) :=
  crossval_inclusion_amended [3/10, 2/10, 6/10] [1/2] [[3/4, 3/4, 3/4]]
    [[1/2, 1/2]] "aps" .tru 0 0 (by norm_num) (by norm_num) (by norm_num)

/-- One step of the pseudo-random generator (a linear congruential
generator standing in for numpy's Mersenne Twister; only determinism and
statefulness matter to the embedded code). -/
def rngNext (s : ℕ) : ℕ := (1103515245 * s + 12345) % 2 ^ 31

/-- Draw `n` uniform variates in `[0, 1)` from generator state `s`,
returning the advanced state. -/
def uniformDraws : ℕ → ℕ → List ℚ × ℕ
  | 0, s => ([], s)
  | n + 1, s =>
      let s2 := rngNext s
      let rest := uniformDraws n s2
      (((s2 : ℚ) / 2 ^ 31) :: rest.1, rest.2)

/-- The `random_state` attribute of a fitted instance: either a fixed
integer seed, or a live generator object with internal state `s`
(`numpy.random.RandomState`). -/
inductive RandomState
  | seed (k : ℕ)
  | generator (s : ℕ)
deriving DecidableEq

/-- `sklearn.utils.check_random_state`: an integer seed yields a freshly
seeded generator on every call; a generator object is used as-is. -/
def checkRandomState : RandomState → ℕ
  | .seed k => k
  | .generator s => s

/-- Draw `n` uniforms through `check_random_state`, recording how the
instance-held `random_state` evolves: a generator object advances, an
integer seed is left untouched (each call re-seeds from scratch). -/
def drawUniformsFrom (rs : RandomState) (n : ℕ) : List ℚ × RandomState :=
  let r := uniformDraws n (checkRandomState rs)
  (r.1, match rs with
        | .seed k => .seed k
        | .generator _ => .generator r.2)

/-- Modelled from the spec: `mapie.utils.compute_quantiles` (not under
`src/`) — for each α the `⌈(n+1)(1-α)⌉`-th smallest score (1-indexed,
clipped to `n`). -/
def quantile1 (scores : List ℚ) (alpha : ℚ) : ℚ :=
  (List.insertionSort (· ≤ ·) scores).getD
    (min scores.length (Nat.ceil (((scores.length : ℚ) + 1) * (1 - alpha))) - 1) 0

/-- Modelled from the spec: `compute_quantiles` over a vector of α values. -/
def computeQuantiles (scores : List ℚ) (alphas : List ℚ) : List ℚ :=
  alphas.map (quantile1 scores)

/-- One row of the `"aps"` prefit prediction set under
`include_last_label="randomized"`: the base inclusion row, then
`_add_random_tie_breaking` — the Romano et al. `V` statistic
`(cumsum_at_last - threshold) / p_last` compared against the sample's
uniform draw `u`, writing the comparison at the last included index
(`np.put_along_axis`). -/
def apsPredictRowRandomized (row : List ℚ) (q : ℚ) (u : ℚ) : List Bool :=
  let r := getLastIncludedProba "aps" row q .randomized 0 0
  let base := (List.range row.length).map (fun c =>
    decide (row.getD c 0 - r.2.2 ≥ -EPSILON))
  base.set r.2.1 (decide ((r.1.getD r.2.1 0 - q) / r.2.2 - u ≤ EPSILON))

/-- The fitted state that `predict` reads for the `"aps"` prefit regime. -/
structure FittedApsState where
  conformityScores : List ℚ
  randomState : RandomState
deriving DecidableEq

/-- `MapieClassifier.predict` for `method="aps"`, `cv="prefit"`,
`include_last_label="randomized"`: quantiles from the stored conformity
scores, one uniform draw per test sample (`us = uniform(size=(n, 1))`,
broadcast over α), and per (sample, α) the tie-broken inclusion row.
Returns the prediction sets (indexed sample, α, class) together with the
instance's `random_state` after the call. -/
def predictApsRandomized (st : FittedApsState) (P : List (List ℚ))
    (alphas : List ℚ) : List (List (List Bool)) × RandomState :=
  let qs := computeQuantiles st.conformityScores alphas
  let draws := drawUniformsFrom st.randomState P.length
  (List.zipWith (fun row u => qs.map (fun q => apsPredictRowRandomized row q u))
    P draws.1, draws.2)

/-- C8: with `random_state` a fixed integer seed, two successive `predict`
calls on the same fitted state with the same inputs and
`include_last_label="randomized"` produce identical prediction sets
(`check_random_state` re-seeds a fresh generator inside
`_add_random_tie_breaking` on every call). -/
theorem predict_randomized_deterministic (st : FittedApsState)
    (P : List (List ℚ)) (alphas : List ℚ) (k : ℕ)
    (h : st.randomState = .seed k) :
    (predictApsRandomized st P alphas).1 =
      (predictApsRandomized
        { st with randomState := (predictApsRandomized st P alphas).2 }
        P alphas).1 := by
  obtain ⟨scores, rs⟩ := st
  simp only at h
  subst h
  rfl

/-- Witness for C8: a concrete fitted state (scores `[1/2]`, seed 7) and
test row `[3/5, 2/5]` at `α = 1/10`. -/
theorem predict_randomized_deterministic_witness :
    (predictApsRandomized ⟨[1/2], .seed 7⟩ [[3/5, 2/5]] [1/10]).1 =
      (predictApsRandomized
        ⟨[1/2], (predictApsRandomized ⟨[1/2], .seed 7⟩ [[3/5, 2/5]] [1/10]).2⟩
        [[3/5, 2/5]] [1/10]).1 :=
  predict_randomized_deterministic ⟨[1/2], .seed 7⟩ [[3/5, 2/5]] [1/10] 7 rfl

/-- The `cv` argument of `MapieClassifier` as far as `fit`'s checks inspect
it: `None` (default 5-fold), `"prefit"`, `"split"`, an integer fold count,
or a `ShuffleSplit` splitter object. -/
inductive CvChoice
  | default
  | prefit
  | split
  | kfold (k : ℤ)
  | shuffleSplitObj
deriving DecidableEq

/-- `MapieClassifier.valid_methods_`. -/
def validMethods : List String :=
  ["naive", "score", "lac", "cumulated_score", "aps", "top_k", "raps"]

/-- Membership in `MapieClassifier.raps_valid_cv_` for the modelled `cv`
(the extra `isinstance(cv, ShuffleSplit)` test of `_check_raps` is already
covered: a splitter object is not the string `"prefit"` or `"split"`). -/
def rapsValidCv (cv : CvChoice) : Bool :=
  cv = CvChoice.prefit ∨ cv = CvChoice.split

/-- `np.unique`: the sorted distinct labels. -/
def uniqueSorted (y : List ℤ) : List ℤ := List.insertionSort (· ≤ ·) y.dedup

/-- The attribute state of a `MapieClassifier` instance: `none` marks an
attribute not yet assigned by `fit` (`fit_attributes` plus the class-info
fields `fit` writes on the way). -/
structure MapieInstance where
  method : String
  cv : CvChoice
  nFeaturesIn : Option ℕ
  nClasses : Option ℕ
  classesAttr : Option (List ℤ)
  labelEncoder : Option (List ℤ)
  conformityScores : Option (List ℚ)
deriving DecidableEq

/-- The tail of `fit` once the class info is known: assign `n_classes_`,
`classes_` and `label_encoder_`, run `_check_target` (a binary target
demands `"lac"`/`"score"`), run the probability-normalization check of
`_check_proba_normalized` (relative tolerance `1e-5`), then compute and
store the per-method conformity scores. -/
def fitTail (inst1 : MapieInstance) (nCls : ℕ) (cls : List ℤ) (y : List ℤ)
    (yPredProba : List (List ℚ)) (u : List ℚ) : MapieInstance × Option String :=
  let inst2 :=
    { inst1 with nClasses := some nCls, classesAttr := some cls, labelEncoder := some cls }
  if (uniqueSorted y).length = 2 ∧ inst2.method ∉ ["score", "lac"] then
    (inst2, some "Invalid method for binary target.")
  else if ¬ yPredProba.all (fun row => |row.sum - 1| ≤ 1 / 100000) then
    (inst2, some "The sum of the scores is not equal to one.")
  else
    let yEnc := y.map (fun v => cls.indexOf v)
    let scores : List ℚ :=
      if inst2.method = "naive" then yPredProba.map (fun _ => 0)
      else if inst2.method = "score" ∨ inst2.method = "lac" then
        lacConformityScores yPredProba yEnc
      else if inst2.method = "cumulated_score" ∨ inst2.method = "aps" ∨
          inst2.method = "raps" then
        apsConformityScores yPredProba yEnc u
      else
        (getTrueLabelPosition yPredProba yEnc).map (fun r => (r : ℚ))
    ({ inst2 with conformityScores := some scores }, none)

/-- The check-and-mutate phase of `MapieClassifier.fit`, with Python's
in-place attribute assignment made explicit: the returned instance carries
every assignment performed before the first raised error (`none` in the
second component means `fit` succeeded).  In source order:
`_check_parameters` (method validity, `_check_raps`) runs before any
assignment; then `self.n_features_in_` is assigned; then
`_get_classes_info` (under `cv="prefit"` a class mismatch raises before
`n_classes_`/`classes_` are assigned); then `fitTail` above.  External
sklearn estimator checks are elided; `estimatorClasses` is the prefit
estimator's `classes_`, `u` the uniform draws of the aps family,
`yPredProba` the out-of-fold calibration probabilities. -/
def fitModel (inst : MapieInstance) (nFeatures : ℕ) (y : List ℤ)
    (estimatorClasses : List ℤ) (yPredProba : List (List ℚ))
    (u : List ℚ) : MapieInstance × Option String :=
  if inst.method ∉ validMethods then
    (inst, some "Invalid method.")
  else if inst.method = "raps" ∧ ¬ rapsValidCv inst.cv then
    (inst, some "RAPS method can only be used with cv in raps_valid_cv_.")
  else
    let inst1 := { inst with nFeaturesIn := some nFeatures }
    if inst.cv = CvChoice.prefit then
      if ¬ (uniqueSorted y).all (fun v => v ∈ estimatorClasses) then
        (inst1, some "Values in y do not matched values in estimator.classes_.")
      else
        fitTail inst1 estimatorClasses.dedup.length estimatorClasses y yPredProba u
    else
      fitTail inst1 (uniqueSorted y).length (uniqueSorted y) y yPredProba u

/-- A fresh (never fitted) instance with the given method and cv. -/
def freshInstance (method : String) (cv : CvChoice) : MapieInstance :=
  ⟨method, cv, none, none, none, none, none⟩

/-- Counterexample to C9: fitting a fresh `method="aps"`, `cv="prefit"`
instance on the binary target `y = [0, 1, 0]` raises the binary-target
error, yet the instance retains partial fitted state — `n_features_in_`,
`n_classes_`, `classes_` and `label_encoder_` are all assigned — whereas the
claim asserts no partial fitted state is retained on any fit failure. -/
theorem fit_partial_state_counterexample :
    ¬ ((fitModel (freshInstance "aps" .prefit) 1 [0, 1, 0] [0, 1]
          [[1/2, 1/2]] []).2.isSome = true →
        (fitModel (freshInstance "aps" .prefit) 1 [0, 1, 0] [0, 1]
          [[1/2, 1/2]] []).1 = freshInstance "aps" .prefit) := by
  have h : fitModel (freshInstance "aps" .prefit) 1 [0, 1, 0] [0, 1]
      [[1/2, 1/2]] [] =
      (⟨"aps", .prefit, some 1, some 2, some [0, 1], some [0, 1], none⟩,
        some "Invalid method for binary target.") := by
    norm_num [fitModel, fitTail, freshInstance, validMethods, rapsValidCv,
      uniqueSorted, List.insertionSort, List.orderedInsert, List.dedup]
    intro hcontra
    exact absurd (hcontra (by decide)) (by decide)
  rw [h]
  intro hcl
  have h2 := hcl rfl
  simp [freshInstance] at h2

/-- On a failing `fitTail`, `conformity_scores_` keeps its prior value. -/
theorem fitTail_error_keeps_scores (inst1 : MapieInstance) (nCls : ℕ)
    (cls : List ℤ) (y : List ℤ) (yPredProba : List (List ℚ)) (u : List ℚ)
    (hsome : (fitTail inst1 nCls cls y yPredProba u).2.isSome) :
    (fitTail inst1 nCls cls y yPredProba u).1.conformityScores =
      inst1.conformityScores := by
  rw [fitTail] at hsome ⊢
  by_cases hb : (uniqueSorted y).length = 2 ∧
      inst1.method ∉ ["score", "lac"]
  · rw [if_pos hb]
  · rw [if_neg hb] at hsome ⊢
    by_cases hn : ¬ yPredProba.all (fun row => |row.sum - 1| ≤ 1 / 100000)
    · rw [if_pos hn]
    · rw [if_neg hn] at hsome
      simp at hsome

/-- C9 amended: each invalid input still raises synchronously at its point
of violation, but only the unknown-method and incompatible-RAPS-cv errors
leave the instance untouched; a prefit class mismatch raises with
`n_features_in_` already assigned, a binary-target violation raises with
`n_features_in_`, `n_classes_`, `classes_` and `label_encoder_` already
assigned, and on every failing path `conformity_scores_` is never
(re)assigned. -/
theorem fit_error_state_amended (inst : MapieInstance) (nFeatures : ℕ)
    (y : List ℤ) (estimatorClasses : List ℤ) (yPredProba : List (List ℚ))
    (u : List ℚ) :
    (inst.method ∉ validMethods →
      fitModel inst nFeatures y estimatorClasses yPredProba u =
        (inst, some "Invalid method.")) ∧
    (inst.method = "raps" → ¬ rapsValidCv inst.cv →
      fitModel inst nFeatures y estimatorClasses yPredProba u =
        (inst, some "RAPS method can only be used with cv in raps_valid_cv_.")) ∧
    (inst.method ∈ validMethods → inst.cv = CvChoice.prefit →
      ¬ (uniqueSorted y).all (fun v => v ∈ estimatorClasses) →
      fitModel inst nFeatures y estimatorClasses yPredProba u =
        ({ inst with nFeaturesIn := some nFeatures },
          some "Values in y do not matched values in estimator.classes_.")) ∧
    (inst.method ∈ validMethods → ¬ (inst.method = "raps" ∧ ¬ rapsValidCv inst.cv) →
      inst.cv ≠ CvChoice.prefit →
      (uniqueSorted y).length = 2 → inst.method ∉ ["score", "lac"] →
      fitModel inst nFeatures y estimatorClasses yPredProba u =
        ({ inst with
            nFeaturesIn := some nFeatures
            nClasses := some (uniqueSorted y).length
            classesAttr := some (uniqueSorted y)
            labelEncoder := some (uniqueSorted y) },
          some "Invalid method for binary target.")) ∧
    ((fitModel inst nFeatures y estimatorClasses yPredProba u).2.isSome →
      (fitModel inst nFeatures y estimatorClasses yPredProba u).1.conformityScores
        = inst.conformityScores) := by
  refine ⟨?_, ?_, ?_, ?_, ?_⟩
  · intro h
    rw [fitModel, if_pos h]
  · intro hm hcv
    rw [fitModel, if_neg (by simp [hm, validMethods]), if_pos ⟨hm, hcv⟩]
  · intro hvm hcv hmis
    rw [fitModel, if_neg (by simp [hvm]),
      if_neg (fun hc => hc.2 (by rw [hcv]; rfl)), if_pos hcv, if_pos hmis]
  · intro hvm hraps hcv hbin hnlac
    rw [fitModel, if_neg (by simp [hvm]), if_neg hraps, if_neg hcv, fitTail,
      if_pos ⟨hbin, hnlac⟩]
  · intro hsome
    rw [fitModel] at hsome ⊢
    by_cases h1 : inst.method ∉ validMethods
    · rw [if_pos h1] at hsome ⊢
    · rw [if_neg h1] at hsome ⊢
      by_cases h2 : inst.method = "raps" ∧ ¬ rapsValidCv inst.cv
      · rw [if_pos h2] at hsome ⊢
      · rw [if_neg h2] at hsome ⊢
        by_cases h3 : inst.cv = CvChoice.prefit
        · rw [if_pos h3] at hsome ⊢
          by_cases h4 : ¬ (uniqueSorted y).all (fun v => v ∈ estimatorClasses)
          · rw [if_pos h4] at hsome ⊢
          · rw [if_neg h4] at hsome ⊢
            exact fitTail_error_keeps_scores _ _ _ _ _ _ hsome
        · rw [if_neg h3] at hsome ⊢
          exact fitTail_error_keeps_scores _ _ _ _ _ _ hsome

/-- Witness for the amended C9: a binary target with `method="aps"` and
`cv` the default CV, instantiating every clause. -/
theorem fit_error_state_amended_witness :
    ((freshInstance "aps" CvChoice.default).method ∉ validMethods →
      fitModel (freshInstance "aps" .default) 1 [0, 1, 0] [0, 1]
          [[1/2, 1/2]] [] = (freshInstance "aps" .default, some "Invalid method.")) ∧
    ((freshInstance "aps" CvChoice.default).method = "raps" →
      ¬ rapsValidCv (freshInstance "aps" CvChoice.default).cv →
      fitModel (freshInstance "aps" .default) 1 [0, 1, 0] [0, 1]
          [[1/2, 1/2]] [] =
        (freshInstance "aps" .default,
          some "RAPS method can only be used with cv in raps_valid_cv_.")) ∧
    ((freshInstance "aps" CvChoice.default).method ∈ validMethods →
      (freshInstance "aps" CvChoice.default).cv = CvChoice.prefit →
      ¬ (uniqueSorted [0, 1, 0]).all (fun v => v ∈ ([0, 1] : List ℤ)) →
      fitModel (freshInstance "aps" .default) 1 [0, 1, 0] [0, 1]
          [[1/2, 1/2]] [] =
        ({ freshInstance "aps" .default with nFeaturesIn := some 1 },
          some "Values in y do not matched values in estimator.classes_.")) ∧
    ((freshInstance "aps" CvChoice.default).method ∈ validMethods →
      ¬ ((freshInstance "aps" CvChoice.default).method = "raps" ∧
        ¬ rapsValidCv (freshInstance "aps" CvChoice.default).cv) →
      (freshInstance "aps" CvChoice.default).cv ≠ CvChoice.prefit →
      (uniqueSorted [0, 1, 0]).length = 2 →
      (freshInstance "aps" CvChoice.default).method ∉ ["score", "lac"] →
      fitModel (freshInstance "aps" .default) 1 [0, 1, 0] [0, 1]
          [[1/2, 1/2]] [] =
        ({ freshInstance "aps" .default with
            nFeaturesIn := some 1
            nClasses := some (uniqueSorted [0, 1, 0]).length
            classesAttr := some (uniqueSorted [0, 1, 0])
            labelEncoder := some (uniqueSorted [0, 1, 0]) },
          some "Invalid method for binary target.")) ∧
    ((fitModel (freshInstance "aps" .default) 1 [0, 1, 0] [0, 1]
        [[1/2, 1/2]] []).2.isSome →
      (fitModel (freshInstance "aps" .default) 1 [0, 1, 0] [0, 1]
          [[1/2, 1/2]] []).1.conformityScores =
        (freshInstance "aps" CvChoice.default).conformityScores) :=
  fit_error_state_amended (freshInstance "aps" .default) 1 [0, 1, 0] [0, 1]
    [[1/2, 1/2]] []


/-- The fixed candidate grid of `_find_lambda_star`
(`[.001, .01, .1, .2, .5]`, values given in the RAPS paper). -/
def lambdaGrid : List ℚ := [1/1000, 1/100, 1/10, 1/5, 1/2]

/-- Modelled from the spec: `mapie.metrics.classification_mean_width_score`
(not under `src/`) — the mean prediction-set size over the samples. -/
def classificationMeanWidthScore (sets : List (List Bool)) : ℚ :=
  (sets.map (fun s => ((s.count true : ℕ) : ℚ))).sum / (sets.length : ℚ)

/-- The per-α slice of an `(n, K, n_alpha)` boolean tensor (`y_ps[:, :, a]`). -/
def setsSlice (yps : List (List (List Bool))) (a : ℕ) : List (List Bool) :=
  yps.map (fun rows => rows.map (fun bs => bs.getD a false))

/-- `MapieClassifier._update_size_and_lambda`: per α, adopt the candidate λ
and its mean set size iff `sizes < best_sizes - EPSILON` (numpy boolean
blending `improve * new + (1 - improve) * old`). -/
def updateSizeAndLambda (bestSizes : List ℚ) (nAlpha : ℕ)
    (yps : List (List (List Bool))) (lam : ℚ) (lambdaStar : List ℚ) :
    List ℚ × List ℚ :=
  let sizes := (List.range nAlpha).map (fun a =>
    classificationMeanWidthScore (setsSlice yps a))
  ((List.range nAlpha).map (fun a =>
      if sizes.getD a 0 < bestSizes.getD a 0 - EPSILON then lam
      else lambdaStar.getD a 0),
   (List.range nAlpha).map (fun a =>
      if sizes.getD a 0 < bestSizes.getD a 0 - EPSILON then sizes.getD a 0
      else bestSizes.getD a 0))

/-- The trial prediction sets built in `_find_lambda_star`:
`y_ps = np.greater_equal(y_pred_proba_raps - y_pred_proba_last, -EPSILON)`,
the last included probability coming from `_get_last_included_proba` under
`method="raps"` with threshold `quantiles[a]`, the candidate `λ`, and
`k_star[a]` per α. -/
def rapsTrialSets (P : List (List ℚ)) (nAlpha : ℕ) (ill : IncludeLastLabel)
    (kStar : List ℚ) (lam : ℚ) (quantiles : List ℚ) :
    List (List (List Bool)) :=
  P.map (fun row =>
    (List.range row.length).map (fun c =>
      (List.range nAlpha).map (fun a =>
        decide (row.getD c 0 -
          (getLastIncludedProba "raps" row (quantiles.getD a 0) ill lam
            (kStar.getD a 0)).2.2 ≥ -EPSILON))))

/-- `MapieClassifier._find_lambda_star`: fold over the candidate grid; each
iteration recomputes the held-out cumulated scores and cutoffs, regularizes
them with the candidate λ and the fixed `k_star`, derives the per-α
quantiles (`compute_quantiles` on the regularized score columns), builds
the trial sets on the held-out probabilities, and lets
`_update_size_and_lambda` adopt improving candidates.  `lambda_star` starts
at zeros and `best_sizes` at `np.finfo(np.float64).max`. -/
def findLambdaStarStep (P : List (List ℚ)) (alphas : List ℚ)
    (ill : IncludeLastLabel) (kStar : List ℚ) (yRaps : List ℕ)
    (acc : List ℚ × List ℚ) (lam : ℚ) : List ℚ × List ℚ :=
  let tl := getTrueLabelCumsumProba yRaps P
  let reg := regularizeConformityScore kStar lam tl.1 tl.2
  let quantiles := (List.range alphas.length).map (fun a =>
    quantile1 (reg.map (fun r => r.getD a 0)) (alphas.getD a 0))
  let yps := rapsTrialSets P alphas.length ill kStar lam quantiles
  updateSizeAndLambda acc.2 alphas.length yps lam acc.1

/-- `MapieClassifier._find_lambda_star` as a fold of the per-candidate step
over the fixed grid, from `lambda_star = np.zeros(len(alpha_np))` and
`best_sizes = np.full(len(alpha_np), np.finfo(np.float64).max)`.  (The
source's final scalar unwrap for a single α is a numpy container
convenience and is not modelled.) -/
def findLambdaStar (P : List (List ℚ)) (alphas : List ℚ)
    (ill : IncludeLastLabel) (kStar : List ℚ) (yRaps : List ℕ) : List ℚ :=
  (lambdaGrid.foldl (findLambdaStarStep P alphas ill kStar yRaps)
    ((List.range alphas.length).map (fun _ => 0),
     (List.range alphas.length).map (fun _ => finfoMax))).1

/-- Steps (1)–(4) of the spec's λ-search iteration, for a single α: the
regularized held-out scores with the candidate λ and the previously fixed
k*, the calibration threshold derived from them, the trial prediction sets
on the same held-out probabilities, and their mean size. -/
def trialMeanSize (P : List (List ℚ)) (alpha : ℚ) (ill : IncludeLastLabel)
    (kStarA : ℚ) (yRaps : List ℕ) (lam : ℚ) : ℚ :=
  let tl := getTrueLabelCumsumProba yRaps P
  let reg := (List.range tl.1.length).map (fun i =>
    tl.1.getD i 0 + max (lam * ((tl.2.getD i 0 : ℚ) - kStarA)) 0)
  let q := quantile1 reg alpha
  let sets := P.map (fun row =>
    (List.range row.length).map (fun c =>
      decide (row.getD c 0 -
        (getLastIncludedProba "raps" row q ill lam kStarA).2.2 ≥ -EPSILON)))
  classificationMeanWidthScore sets

/-- The spec's greedy λ search for one α: `best_size` starts at +∞
(represented by `none`), `λ* = 0`, and a candidate is adopted — updating
`best_size` — iff its mean trial size is strictly smaller than `best_size`
by more than ε. -/
def lambdaSearchSpecStep (P : List (List ℚ)) (alpha : ℚ)
    (ill : IncludeLastLabel) (kStarA : ℚ) (yRaps : List ℕ)
    (acc : Option ℚ × ℚ) (lam : ℚ) : Option ℚ × ℚ :=
  let size := trialMeanSize P alpha ill kStarA yRaps lam
  if (match acc.1 with
      | none => true
      | some b => decide (size < b - EPSILON)) = true
  then ((some size : Option ℚ), lam) else acc

def lambdaSearchSpec (P : List (List ℚ)) (alpha : ℚ) (ill : IncludeLastLabel)
    (kStarA : ℚ) (yRaps : List ℕ) : ℚ :=
  (lambdaGrid.foldl (lambdaSearchSpecStep P alpha ill kStarA yRaps)
    ((none : Option ℚ), (0 : ℚ))).2

/-- The largest row length of a probability matrix (bounds every set size). -/
def maxRowLen (P : List (List ℚ)) : ℕ :=
  P.foldr (fun r m => max r.length m) 0

theorem length_le_maxRowLen {P : List (List ℚ)} {row : List ℚ} (h : row ∈ P) :
    row.length ≤ maxRowLen P := by
  induction P with
  | nil => simp at h
  | cons r rest ih =>
    rcases List.mem_cons.1 h with rfl | h2
    · exact le_max_left _ _
    · exact le_trans (ih h2) (le_max_right _ _)

theorem classificationMeanWidthScore_le (sets : List (List Bool)) (B : ℚ)
    (hB : 0 ≤ B) (h : ∀ s ∈ sets, ((s.count true : ℕ) : ℚ) ≤ B) :
    classificationMeanWidthScore sets ≤ B := by
  rw [classificationMeanWidthScore]
  rcases List.eq_nil_or_concat sets with rfl | _
  · simpa using hB
  · have hpos : (0 : ℚ) < (sets.length : ℚ) := by
      have : sets ≠ [] := by
        rintro rfl
        simp_all
      have := List.length_pos.2 this
      exact_mod_cast this
    rw [div_le_iff₀ hpos]
    have hsum : (sets.map (fun s => ((s.count true : ℕ) : ℚ))).sum ≤
        (sets.map (fun s => ((s.count true : ℕ) : ℚ))).length • B :=
      List.sum_le_card_nsmul _ B (by
        intro x hx
        rcases List.mem_map.1 hx with ⟨s, hs, rfl⟩
        exact h s hs)
    rw [List.length_map] at hsum
    calc (sets.map (fun s => ((s.count true : ℕ) : ℚ))).sum
        ≤ sets.length • B := hsum
      _ = B * sets.length := by rw [nsmul_eq_mul, mul_comm]

theorem trialMeanSize_le (P : List (List ℚ)) (alpha : ℚ)
    (ill : IncludeLastLabel) (kStarA : ℚ) (yRaps : List ℕ) (lam : ℚ) :
    trialMeanSize P alpha ill kStarA yRaps lam ≤ (maxRowLen P : ℚ) := by
  simp only [trialMeanSize]
  apply classificationMeanWidthScore_le _ _ (Nat.cast_nonneg _)
  intro s hs
  rcases List.mem_map.1 hs with ⟨row, hrow, rfl⟩
  have h1 : ∀ F : ℕ → Bool,
      ((((List.range row.length).map F).count true : ℕ) : ℚ) ≤
        (maxRowLen P : ℚ) := by
    intro F
    have h2 : ((List.range row.length).map F).count true ≤ row.length := by
      calc ((List.range row.length).map F).count true
          ≤ ((List.range row.length).map F).length := List.count_le_length _ _
        _ = row.length := by simp
    have h3 := length_le_maxRowLen hrow
    exact_mod_cast le_trans h2 h3
  exact h1 _

/-- The α-slice of the trial sets built with the vectorized quantiles equals
the spec-side single-α trial sets: the mean width the source measures for
the `a`-th α is exactly `trialMeanSize` at that α's `k*` and quantile. -/
theorem sizes_slice_eq (P : List (List ℚ)) (alphas : List ℚ)
    (ill : IncludeLastLabel) (kStar : List ℚ) (yRaps : List ℕ) (lam : ℚ)
    (a : ℕ) (ha : a < alphas.length) (hk : alphas.length = kStar.length) :
    classificationMeanWidthScore (setsSlice
      (rapsTrialSets P alphas.length ill kStar lam
        ((List.range alphas.length).map (fun a2 =>
          quantile1 ((regularizeConformityScore kStar lam
              (getTrueLabelCumsumProba yRaps P).1
              (getTrueLabelCumsumProba yRaps P).2).map (fun r => r.getD a2 0))
            (alphas.getD a2 0)))) a) =
      trialMeanSize P (alphas.getD a 0) ill (kStar.getD a 0) yRaps lam := by
  have hak : a < kStar.length := hk ▸ ha
  have hcol : (regularizeConformityScore kStar lam
      (getTrueLabelCumsumProba yRaps P).1 (getTrueLabelCumsumProba yRaps P).2).map
        (fun r => r.getD a 0) =
      (List.range (getTrueLabelCumsumProba yRaps P).1.length).map (fun i =>
        (getTrueLabelCumsumProba yRaps P).1.getD i 0 +
          max (lam * (((getTrueLabelCumsumProba yRaps P).2.getD i 0 : ℚ) -
            kStar.getD a 0)) 0) := by
    rw [regularizeConformityScore, List.map_map]
    apply List.map_congr_left
    intro i _
    simp only [Function.comp]
    rw [getD_map_lt _ _ _ _ 0 hak]
  have hq : ((List.range alphas.length).map (fun a2 =>
      quantile1 ((regularizeConformityScore kStar lam
          (getTrueLabelCumsumProba yRaps P).1
          (getTrueLabelCumsumProba yRaps P).2).map (fun r => r.getD a2 0))
        (alphas.getD a2 0))).getD a 0 =
      quantile1 ((regularizeConformityScore kStar lam
          (getTrueLabelCumsumProba yRaps P).1
          (getTrueLabelCumsumProba yRaps P).2).map (fun r => r.getD a 0))
        (alphas.getD a 0) :=
    getD_range_map _ _ _ _ ha
  simp only [trialMeanSize]
  congr 1
  rw [setsSlice, rapsTrialSets, List.map_map]
  apply List.map_congr_left
  intro row _
  simp only [Function.comp]
  rw [List.map_map]
  apply List.map_congr_left
  intro c _
  simp only [Function.comp]
  rw [getD_range_map _ _ _ _ ha, hq, hcol]

/-- Per-α projection of one source iteration: the vectorized
`_update_size_and_lambda` updates component `a` exactly by the spec's
"adopt iff strictly smaller by more than ε" rule on `trialMeanSize`. -/
theorem findLambdaStarStep_proj (P : List (List ℚ)) (alphas : List ℚ)
    (ill : IncludeLastLabel) (kStar : List ℚ) (yRaps : List ℕ) (lam : ℚ)
    (acc : List ℚ × List ℚ) (a : ℕ) (ha : a < alphas.length)
    (hk : alphas.length = kStar.length) :
    (findLambdaStarStep P alphas ill kStar yRaps acc lam).1.getD a 0 =
      (if trialMeanSize P (alphas.getD a 0) ill (kStar.getD a 0) yRaps lam <
          acc.2.getD a 0 - EPSILON then lam else acc.1.getD a 0) ∧
    (findLambdaStarStep P alphas ill kStar yRaps acc lam).2.getD a 0 =
      (if trialMeanSize P (alphas.getD a 0) ill (kStar.getD a 0) yRaps lam <
          acc.2.getD a 0 - EPSILON
        then trialMeanSize P (alphas.getD a 0) ill (kStar.getD a 0) yRaps lam
        else acc.2.getD a 0) := by
  simp only [findLambdaStarStep, updateSizeAndLambda,
    getD_range_map _ _ _ _ ha, sizes_slice_eq P alphas ill kStar yRaps lam a ha hk]
  exact ⟨trivial, trivial⟩

/-- The per-α invariant carried through the candidate grid: component `a` of
the vectorized accumulator tracks the spec-side scalar accumulator, where
`best_size = np.finfo(float64).max` plays the role of the spec's +∞ as long
as every trial size is below `finfoMax - EPSILON`. -/
theorem lambda_fold_invariant (P : List (List ℚ)) (alphas : List ℚ)
    (ill : IncludeLastLabel) (kStar : List ℚ) (yRaps : List ℕ) (a : ℕ)
    (ha : a < alphas.length) (hk : alphas.length = kStar.length)
    (grid : List ℚ)
    (hbound : ∀ lam ∈ grid,
      trialMeanSize P (alphas.getD a 0) ill (kStar.getD a 0) yRaps lam <
        finfoMax - EPSILON)
    (vecAcc : List ℚ × List ℚ) (sAcc : Option ℚ × ℚ)
    (hlam : vecAcc.1.getD a 0 = sAcc.2)
    (hbest : (sAcc.1 = none ∧ vecAcc.2.getD a 0 = finfoMax) ∨
      sAcc.1 = some (vecAcc.2.getD a 0)) :
    (grid.foldl (findLambdaStarStep P alphas ill kStar yRaps) vecAcc).1.getD a 0 =
      (grid.foldl (lambdaSearchSpecStep P (alphas.getD a 0) ill
        (kStar.getD a 0) yRaps) sAcc).2 := by
  induction grid generalizing vecAcc sAcc with
  | nil => simpa using hlam
  | cons lam rest ih =>
    simp only [List.foldl_cons]
    have hproj := findLambdaStarStep_proj P alphas ill kStar yRaps lam vecAcc a
      ha hk
    have hsz := hbound lam (List.mem_cons_self _ _)
    have hrest : ∀ l ∈ rest,
        trialMeanSize P (alphas.getD a 0) ill (kStar.getD a 0) yRaps l <
          finfoMax - EPSILON :=
      fun l hl => hbound l (List.mem_cons_of_mem _ hl)
    rcases hbest with ⟨hnone, hfin⟩ | hsome
    · -- the spec side is still at +∞: both sides adopt this candidate
      have himp : trialMeanSize P (alphas.getD a 0) ill (kStar.getD a 0) yRaps
          lam < vecAcc.2.getD a 0 - EPSILON := by
        rw [hfin]; exact hsz
      apply ih hrest
      · rw [hproj.1, if_pos himp]
        simp only [lambdaSearchSpecStep, hnone, eq_self_iff_true, if_true]
      · right
        rw [hproj.2, if_pos himp]
        simp only [lambdaSearchSpecStep, hnone, eq_self_iff_true, if_true]
    · -- the spec side holds exactly the vector best: the two tests agree
      by_cases himp : trialMeanSize P (alphas.getD a 0) ill (kStar.getD a 0)
          yRaps lam < vecAcc.2.getD a 0 - EPSILON
      · apply ih hrest
        · rw [hproj.1, if_pos himp]
          simp only [lambdaSearchSpecStep, hsome, decide_eq_true_eq]
          rw [if_pos himp]
        · right
          rw [hproj.2, if_pos himp]
          simp only [lambdaSearchSpecStep, hsome, decide_eq_true_eq]
          rw [if_pos himp]
      · apply ih hrest
        · rw [hproj.1, if_neg himp]
          simp only [lambdaSearchSpecStep, hsome, decide_eq_true_eq]
          rw [if_neg himp]
          exact hlam
        · rw [hproj.2, if_neg himp]
          simp only [lambdaSearchSpecStep, hsome, decide_eq_true_eq]
          rw [if_neg himp]
          right
          exact hsome

/-- C5: for each α independently, `_find_lambda_star` implements exactly the
claimed greedy search: it iterates over exactly the candidate grid
`{0.001, 0.01, 0.1, 0.2, 0.5}`; starting from `best_size = +∞`, `λ* = 0` it
(1) computes regularized scores on the held-out split with the candidate λ
and the previously fixed k*, (2) derives thresholds from them, (3) builds
trial prediction sets on the held-out probabilities, (4) takes their mean
size, and (5) adopts the candidate as λ* — updating `best_size` — iff that
size is strictly smaller than `best_size` by more than ε.  The source
initializes `best_sizes` to the largest finite float64, which coincides
with the claim's +∞ as long as mean set sizes stay below
`finfoMax - EPSILON`; the hypothesis bounds them by the class count. -/
theorem find_lambda_star_per_alpha (P : List (List ℚ)) (alphas : List ℚ)
    (ill : IncludeLastLabel) (kStar : List ℚ) (yRaps : List ℕ) (a : ℕ)
    (ha : a < alphas.length) (hk : alphas.length = kStar.length)
    (hbound : ((maxRowLen P : ℕ) : ℚ) < finfoMax - EPSILON) :
    (findLambdaStar P alphas ill kStar yRaps).getD a 0 =
      lambdaSearchSpec P (alphas.getD a 0) ill (kStar.getD a 0) yRaps := by
  rw [findLambdaStar, lambdaSearchSpec]
  apply lambda_fold_invariant P alphas ill kStar yRaps a ha hk
  · intro lam _
    exact lt_of_le_of_lt (trialMeanSize_le P _ ill _ yRaps lam) hbound
  · rw [getD_range_map _ _ _ _ ha]
  · left
    refine ⟨rfl, ?_⟩
    rw [getD_range_map _ _ _ _ ha]

/-- Witness for C5: the held-out set `P = [[3/5, 2/5]]`, `y = [0]`,
`α = 1/2`, `k* = [1]`. -/
theorem find_lambda_star_per_alpha_witness :
    (findLambdaStar [[3/5, 2/5]] [1/2] .tru [1] [0]).getD 0 0 =
      lambdaSearchSpec [[3/5, 2/5]] ([1/2].getD 0 0) .tru ([1].getD 0 0) [0] :=
  find_lambda_star_per_alpha [[3/5, 2/5]] [1/2] .tru [1] [0] 0
    (by norm_num) (by norm_num)
    (by norm_num [maxRowLen, finfoMax, EPSILON])

end Mapie
